import Mathlib

/-!
Shallow embedding of the retrieval core of healthexplain-pro.

The embedded code is `src/utils/pdf_processor.py` (`split_into_chunks`) and
`src/utils/vector_store.py` (`Document`, `VectorStore.add_texts`,
`VectorStore.similarity_search`, `VectorStore.save`, `VectorStore.load`).

Strings are modelled as `List Char`.  The external collaborators are modelled
by their contracts: the sentence-transformer embedding model is an arbitrary
function `encode : String → List ℤ`, and the FAISS `IndexFlatIP` is modelled
as an exact inner-product top-k index whose row storage is the list
`VectorStore.vectors` and which, on exact score ties, returns the smaller row
id first (the behaviour of the flat exact index).  Embedding coordinates and
scores are modelled as integers: every claim below uses only the linear order
on scores, never division or rounding.
-/

namespace HealthExplain

/-- ASCII whitespace, as matched by the `\s` class of the source regexes
`(?<=[.!?])\s+` and `\s+`, and stripped by `str.strip()`. -/
def isSpace (c : Char) : Bool :=
  c == ' ' || c == '\t' || c == '\n' || c == '\r' || c == Char.ofNat 11 || c == Char.ofNat 12

/-- Sentence-ending punctuation, from the lookbehind `(?<=[.!?])`. -/
def isPunct (c : Char) : Bool :=
  c == '.' || c == '!' || c == '?'

/-- Whether a character list starts with a whitespace character. -/
def startsWithSpace : List Char → Bool
  | [] => false
  | d :: _ => isSpace d

/-- `re.split(r'(?<=[.!?])\s+', text)`, transcribed as a left-to-right scan.
A match of the pattern is a maximal whitespace run whose directly preceding
character is `.`, `!` or `?`; the text between consecutive matches forms the
sentences.  `acc` holds the characters of the current sentence in reverse;
`skip = true` means the scanner is inside the whitespace run of a match
(those characters are consumed and belong to no sentence). -/
def sentAux : Bool → List Char → List Char → List (List Char)
  | _, acc, [] => [acc.reverse]
  | true, acc, c :: rest =>
    if isSpace c then
      sentAux true acc rest
    else if isPunct c && startsWithSpace rest then
      (c :: acc).reverse :: sentAux true [] rest
    else
      sentAux false (c :: acc) rest
  | false, acc, c :: rest =>
    if isPunct c && startsWithSpace rest then
      (c :: acc).reverse :: sentAux true [] rest
    else
      sentAux false (c :: acc) rest

/-- `sentences = re.split(r'(?<=[.!?])\s+', text)` from `split_into_chunks`. -/
def splitSentences (text : List Char) : List (List Char) :=
  sentAux false [] text

/-- Python `str.strip()`: remove leading and trailing whitespace. -/
def pyStrip (s : List Char) : List Char :=
  ((s.dropWhile isSpace).reverse.dropWhile isSpace).reverse

/-- The `for sentence in sentences:` loop of `split_into_chunks`, including
the final `if current_chunk: chunks.append(current_chunk.strip())` flush.
`current` is `current_chunk`; emitted chunks are returned in order. -/
def chunkLoop (chunk_size : Int) : List Char → List (List Char) → List (List Char)
  | current, [] => if current = [] then [] else [pyStrip current]
  | current, s :: rest =>
    if (current.length : Int) + (s.length : Int) ≤ chunk_size then
      chunkLoop chunk_size (current ++ s ++ [' ']) rest
    else if current = [] then
      chunkLoop chunk_size (s ++ [' ']) rest
    else
      pyStrip current :: chunkLoop chunk_size (s ++ [' ']) rest

/-- `split_into_chunks(text, chunk_size)` from `pdf_processor.py`. -/
def split_into_chunks (text : List Char) (chunk_size : Int) : List (List Char) :=
  chunkLoop chunk_size [] (splitSentences text)

/-- Joining a list of chunks with single-space separators. -/
def joinSp : List (List Char) → List Char
  | [] => []
  | [s] => s
  | s :: t :: rest => s ++ ' ' :: joinSp (t :: rest)

/-- Metadata mapping: a Python dict with string keys. -/
abbrev Md := List (String × String)

/-- The `Document` dataclass of `vector_store.py`. -/
structure Document where
  text : String
  metadata : Option Md := none
deriving DecidableEq

/-- State of a `VectorStore`: the rows of the FAISS `IndexFlatIP` and the
parallel `documents` list.  The embedding model is passed separately as an
`encode` function. -/
structure VectorStore where
  vectors : List (List ℤ)
  documents : List Document
deriving DecidableEq

/-- `index.ntotal`: the number of stored rows. -/
def VectorStore.ntotal (vs : VectorStore) : ℕ :=
  vs.vectors.length

/-- A freshly constructed `VectorStore()`: empty index, no documents. -/
def emptyStore : VectorStore :=
  ⟨[], []⟩

/-- `VectorStore.add_texts(texts, metadatas)`.  Mirrors the source: early
return on empty `texts`; default metadatas `[{} for _ in texts]`; documents
built with `zip(texts, metadatas)` (which truncates to the shorter argument,
as Python `zip` does); embeddings appended for every text. -/
def add_texts (encode : String → List ℤ) (vs : VectorStore)
    (texts : List String) (metadatas : Option (List Md)) : VectorStore :=
  if texts.isEmpty then vs
  else
    let metas := match metadatas with
      | none => texts.map fun _ => ([] : Md)
      | some m => m
    let documents := (texts.zip metas).map fun p => Document.mk p.1 (some p.2)
    { vectors := vs.vectors ++ texts.map encode
      documents := vs.documents ++ documents }

/-- One `add_texts` call: its `texts` and its optional `metadatas`. -/
structure InsertCall where
  texts : List String
  metadatas : Option (List Md)

/-- Apply a sequence of `add_texts` calls in order. -/
def applyCalls (encode : String → List ℤ) (vs : VectorStore)
    (calls : List InsertCall) : VectorStore :=
  calls.foldl (fun st c => add_texts encode st c.texts c.metadatas) vs

/-- Inner product of a query embedding and a stored row
(the FAISS `IndexFlatIP` metric). -/
def score (q v : List ℤ) : ℤ :=
  ((q.zip v).map fun p => p.1 * p.2).sum

/-- Ranking order of the flat exact index: a row ranks before another when its
inner product with the query is larger, or equal with a smaller row id. -/
def rankLE (vecs : List (List ℤ)) (q : List ℤ) (i j : ℕ) : Prop :=
  score q (vecs.getD j []) < score q (vecs.getD i []) ∨
    (score q (vecs.getD i []) = score q (vecs.getD j []) ∧ i ≤ j)

instance rankLE.decRel (vecs : List (List ℤ)) (q : List ℤ) :
    DecidableRel (rankLE vecs q) := fun i j =>
  inferInstanceAs (Decidable (score q (vecs.getD j []) < score q (vecs.getD i []) ∨
    (score q (vecs.getD i []) = score q (vecs.getD j []) ∧ i ≤ j)))

instance rankLE.isTotal (vecs : List (List ℤ)) (q : List ℤ) :
    IsTotal ℕ (rankLE vecs q) := by
  constructor
  intro i j
  rcases lt_trichotomy (score q (vecs.getD i [])) (score q (vecs.getD j [])) with h | h | h
  · exact Or.inr (Or.inl h)
  · rcases Nat.le_total i j with hij | hij
    · exact Or.inl (Or.inr ⟨h, hij⟩)
    · exact Or.inr (Or.inr ⟨h.symm, hij⟩)
  · exact Or.inl (Or.inl h)

instance rankLE.isTrans (vecs : List (List ℤ)) (q : List ℤ) :
    IsTrans ℕ (rankLE vecs q) := by
  constructor
  intro i j l hij hjl
  rcases hij with hij | ⟨hij, hij'⟩ <;> rcases hjl with hjl | ⟨hjl, hjl'⟩
  · exact Or.inl (hjl.trans hij)
  · exact Or.inl (hjl ▸ hij)
  · exact Or.inl (hjl.trans_eq hij.symm)
  · exact Or.inr ⟨hij.trans hjl, hij'.trans hjl'⟩

/-- `index.search(query_embedding, k)` of the flat exact index: row ids of the
`k` best rows, ordered by descending inner product, ties by ascending id. -/
def searchIndices (vecs : List (List ℤ)) (q : List ℤ) (k : ℕ) : List ℕ :=
  (List.insertionSort (rankLE vecs q) (List.range vecs.length)).take k

/-- `VectorStore.similarity_search(query, k)`: empty result on an empty index,
otherwise `k` is clamped to `min(k, ntotal)` and the ranked rows are mapped
through `documents`. -/
def similarity_search (encode : String → List ℤ) (vs : VectorStore)
    (q : String) (k : ℕ) : List Document :=
  if vs.vectors.length = 0 then []
  else
    let kk := min k vs.vectors.length
    (searchIndices vs.vectors (encode q) kk).map fun i => vs.documents.getD i ⟨"", none⟩

/-- The two artifacts written by `VectorStore.save`: the serialized FAISS
index (`index.faiss`) and the pickled document list (`documents.pkl`). -/
structure SavedStore where
  indexData : List (List ℤ)
  docsData : List Document

/-- `VectorStore.save(directory)`: serialize the index rows and documents. -/
def VectorStore.save (vs : VectorStore) : SavedStore :=
  ⟨vs.vectors, vs.documents⟩

/-- `VectorStore.load(directory, model_name)`: construct a store from the two
saved artifacts (the embedding model itself is the ambient `encode`). -/
def VectorStore.load (saved : SavedStore) : VectorStore :=
  { vectors := saved.indexData, documents := saved.docsData }

/-- A concrete embedding function used for witnesses. -/
def encode0 : String → List ℤ := fun s => [(s.length : ℤ)]

/-- Stripping is unaffected by one trailing space. -/
theorem pyStrip_append_space (x : List Char) : pyStrip (x ++ [' ']) = pyStrip x := by
  induction x with
  | nil => decide
  | cons c x ih =>
    by_cases hc : isSpace c = true
    · unfold pyStrip
      rw [List.cons_append, List.dropWhile_cons, List.dropWhile_cons, if_pos hc, if_pos hc]
      exact ih
    · unfold pyStrip
      rw [List.cons_append, List.dropWhile_cons, List.dropWhile_cons, if_neg hc, if_neg hc]
      have h1 : (c :: (x ++ [' '])).reverse = ' ' :: (x.reverse ++ [c]) := by simp
      have h2 : (c :: x).reverse = x.reverse ++ [c] := by simp
      rw [h1, h2, List.dropWhile_cons, if_pos (show isSpace ' ' = true from rfl)]

/-- Whether a text contains no match of `(?<=[.!?])\s+`: no `.`, `!` or `?`
directly followed by a whitespace character. -/
def noDelim : List Char → Bool
  | [] => true
  | [_] => true
  | a :: b :: rest => !(isPunct a && isSpace b) && noDelim (b :: rest)

/-- A text with no sentence-delimiter occurrence is scanned as one single
sentence. -/
theorem sentAux_no_split (t : List Char) :
    ∀ acc, noDelim t = true → sentAux false acc t = [acc.reverse ++ t] := by
  induction t with
  | nil => intro acc _; simp [sentAux]
  | cons c rest ih =>
    intro acc h
    have hsplit : (isPunct c && startsWithSpace rest) = false := by
      cases rest with
      | nil => simp [startsWithSpace]
      | cons d rest' =>
        have hcd := (Bool.and_eq_true _ _).mp h |>.1
        simp only [startsWithSpace]
        cases hp : isPunct c <;> cases hs : isSpace d <;> simp_all
    have hrest : noDelim rest = true := by
      cases rest with
      | nil => rfl
      | cons d rest' => exact ((Bool.and_eq_true _ _).mp h).2
    simp only [sentAux, hsplit, Bool.false_eq_true, if_false]
    rw [ih (c :: acc) hrest]
    simp

/-- Dropping a prefix cannot lengthen a list. -/
theorem length_dropWhile_le (p : Char → Bool) :
    ∀ l : List Char, (l.dropWhile p).length ≤ l.length := by
  intro l
  induction l with
  | nil => exact Nat.le_refl 0
  | cons c l ih =>
    rw [List.dropWhile_cons]
    by_cases hc : p c = true
    · rw [if_pos hc]
      exact Nat.le_succ_of_le ih
    · rw [if_neg hc]

/-- Stripping cannot lengthen a string. -/
theorem pyStrip_length_le (x : List Char) : (pyStrip x).length ≤ x.length := by
  unfold pyStrip
  calc ((x.dropWhile isSpace).reverse.dropWhile isSpace).reverse.length
      = ((x.dropWhile isSpace).reverse.dropWhile isSpace).length := List.length_reverse _
    _ ≤ (x.dropWhile isSpace).reverse.length := length_dropWhile_le _ _
    _ = (x.dropWhile isSpace).length := List.length_reverse _
    _ ≤ x.length := length_dropWhile_le _ _

/-- The first element surviving `dropWhile` fails the predicate. -/
theorem dropWhile_head_false (p : Char → Bool) :
    ∀ (l : List Char) (h : Char) (t : List Char), l.dropWhile p = h :: t → p h = false := by
  intro l
  induction l with
  | nil => intro h t hc; simp at hc
  | cons c l ih =>
    intro h t hc
    rw [List.dropWhile_cons] at hc
    by_cases hpc : p c = true
    · rw [if_pos hpc] at hc
      exact ih h t hc
    · rw [if_neg hpc] at hc
      cases hc
      simpa using hpc

/-- A nonempty stripped string contains a non-whitespace character. -/
theorem pyStrip_mem_nonspace (x : List Char) (hx : pyStrip x ≠ []) :
    ∃ ch ∈ pyStrip x, isSpace ch = false := by
  cases hd : (x.dropWhile isSpace).reverse.dropWhile isSpace with
  | nil =>
    exact absurd (show pyStrip x = [] by unfold pyStrip; rw [hd]; rfl) hx
  | cons h t =>
    have hh := dropWhile_head_false isSpace _ h t hd
    refine ⟨h, ?_, hh⟩
    show h ∈ pyStrip x
    unfold pyStrip
    rw [hd]
    exact List.mem_reverse.mpr (List.mem_cons_self h t)

/-- Every chunk emitted by the loop is the strip of some buffer. -/
theorem chunkLoop_mem_strip (cs : Int) :
    ∀ (rest : List (List Char)) (current : List Char) (c : List Char),
      c ∈ chunkLoop cs current rest → ∃ x, c = pyStrip x := by
  intro rest
  induction rest with
  | nil =>
    intro current c hc
    by_cases h0 : current = []
    · subst h0
      simp [chunkLoop] at hc
    · simp only [chunkLoop, if_neg h0, List.mem_singleton] at hc
      exact ⟨current, hc⟩
  | cons s rest ih =>
    intro current c hc
    simp only [chunkLoop] at hc
    by_cases hfit : ((current.length : Int) + (s.length : Int) ≤ cs)
    · rw [if_pos hfit] at hc
      exact ih _ c hc
    · rw [if_neg hfit] at hc
      by_cases h0 : current = []
      · rw [if_pos h0] at hc
        exact ih _ c hc
      · rw [if_neg h0] at hc
        rcases List.mem_cons.mp hc with h1 | h2
        · exact ⟨current, h1⟩
        · exact ih _ c h2

/-- On the empty input the chunker returns one single empty chunk. -/
theorem split_into_chunks_nil (chunk_size : Int) :
    split_into_chunks [] chunk_size = [[]] := by
  show chunkLoop chunk_size [] [[]] = [[]]
  have hstep : chunkLoop chunk_size [] [([] : List Char)] = chunkLoop chunk_size [' '] [] := by
    show (if ((([] : List Char).length : Int) + (([] : List Char).length : Int) ≤ chunk_size) then
        chunkLoop chunk_size [' '] [] else chunkLoop chunk_size [' '] []) =
      chunkLoop chunk_size [' '] []
    exact ite_self _
  rw [hstep]
  rfl

/-- Main invariant of the chunking loop for the size bound: every emitted
chunk either fits `chunk_size` or is the strip of one single oversized
sentence.  `S` is the full sentence list, `rest` the sentences still to be
processed, and the hypothesis on `current` says the buffer is either empty or
a space-terminated accumulation that fits, or one single oversized sentence. -/
theorem chunkLoop_bound (cs : Int) (S : List (List Char)) :
    ∀ (rest : List (List Char)) (current : List Char),
      (∀ s ∈ rest, s ∈ S) →
      (current = [] ∨ ∃ x, current = x ++ [' '] ∧
        ((x.length : Int) ≤ cs ∨ ∃ s ∈ S, x = s ∧ cs < (s.length : Int))) →
      ∀ c ∈ chunkLoop cs current rest,
        (c.length : Int) ≤ cs ∨ ∃ s ∈ S, c = pyStrip s ∧ cs < (s.length : Int) := by
  intro rest
  induction rest with
  | nil =>
    intro current _ hcur c hc
    rcases hcur with h0 | ⟨x, hx, hxb⟩
    · subst h0
      simp [chunkLoop] at hc
    · subst hx
      have hne : x ++ [' '] ≠ [] := by simp
      simp only [chunkLoop, if_neg hne, List.mem_singleton] at hc
      subst hc
      rw [pyStrip_append_space]
      rcases hxb with hle | ⟨s, hsS, hxs, hbig⟩
      · exact Or.inl (le_trans (by exact_mod_cast pyStrip_length_le x) hle)
      · exact Or.inr ⟨s, hsS, by rw [hxs], hbig⟩
  | cons s rest ih =>
    intro current hrest hcur c hc
    have hsS : s ∈ S := hrest s (List.mem_cons_self s rest)
    have hrest' : ∀ t ∈ rest, t ∈ S := fun t ht => hrest t (List.mem_cons_of_mem s ht)
    simp only [chunkLoop] at hc
    by_cases hfit : (current.length : Int) + (s.length : Int) ≤ cs
    · rw [if_pos hfit] at hc
      refine ih (current ++ s ++ [' ']) hrest' (Or.inr ⟨current ++ s, by simp, Or.inl ?_⟩) c hc
      rw [List.length_append]
      push_cast
      exact hfit
    · rw [if_neg hfit] at hc
      by_cases hcur0 : current = []
      · rw [if_pos hcur0] at hc
        subst hcur0
        have hbig : cs < (s.length : Int) := by
          simpa using not_le.mp hfit
        exact ih (s ++ [' ']) hrest' (Or.inr ⟨s, rfl, Or.inr ⟨s, hsS, rfl, hbig⟩⟩) c hc
      · rw [if_neg hcur0] at hc
        rcases hcur with h0 | ⟨x, hx, hxb⟩
        · exact absurd h0 hcur0
        rcases List.mem_cons.mp hc with hc1 | hc2
        · subst hc1
          subst hx
          rw [pyStrip_append_space]
          rcases hxb with hle | ⟨t, htS, hxt, hbig⟩
          · exact Or.inl (le_trans (by exact_mod_cast pyStrip_length_le x) hle)
          · exact Or.inr ⟨t, htS, by rw [hxt], hbig⟩
        · by_cases hsfit : (s.length : Int) ≤ cs
          · exact ih (s ++ [' ']) hrest' (Or.inr ⟨s, rfl, Or.inl hsfit⟩) c hc2
          · exact ih (s ++ [' ']) hrest'
              (Or.inr ⟨s, rfl, Or.inr ⟨s, hsS, rfl, not_le.mp hsfit⟩⟩) c hc2

/-- No two adjacent whitespace characters anywhere in the text. -/
def noAdjSpace : List Char → Bool
  | [] => true
  | [_] => true
  | a :: b :: rest => !(isSpace a && isSpace b) && noAdjSpace (b :: rest)

/-- Every whitespace character of the text is a plain `' '`. -/
def allBlank (t : List Char) : Bool :=
  t.all fun c => !isSpace c || c == ' '

/-- The first character, when present, is not whitespace. -/
def headNotSpace : List Char → Bool
  | [] => true
  | c :: _ => !isSpace c

/-- The last character, when present, is not whitespace. -/
def lastNotSpace : List Char → Bool
  | [] => true
  | [c] => !isSpace c
  | _ :: c :: rest => lastNotSpace (c :: rest)

/-- Whitespace-normalized text, as produced by `re.sub(r'\s+', ' ', t).strip()`:
consecutive whitespace collapsed to single plain spaces and no leading or
trailing whitespace. -/
def Normalized (t : List Char) : Prop :=
  noAdjSpace t = true ∧ allBlank t = true ∧ headNotSpace t = true ∧ lastNotSpace t = true

instance Normalized.dec (t : List Char) : Decidable (Normalized t) :=
  inferInstanceAs (Decidable (noAdjSpace t = true ∧ allBlank t = true ∧
    headNotSpace t = true ∧ lastNotSpace t = true))

/-- A well-formed sentence of a normalized text: non-empty, no whitespace at
either end. -/
def goodSent (x : List Char) : Prop :=
  x ≠ [] ∧ headNotSpace x = true ∧ lastNotSpace x = true

theorem lastNotSpace_cons (a : Char) (z : List Char) (hz : z ≠ []) :
    lastNotSpace (a :: z) = lastNotSpace z := by
  cases z with
  | nil => exact absurd rfl hz
  | cons b z' => rfl

theorem headNotSpace_append (x y : List Char) (hx : x ≠ []) :
    headNotSpace (x ++ y) = headNotSpace x := by
  cases x with
  | nil => exact absurd rfl hx
  | cons a x' => rfl

theorem lastNotSpace_append (x y : List Char) (hy : y ≠ []) :
    lastNotSpace (x ++ y) = lastNotSpace y := by
  induction x with
  | nil => rfl
  | cons a x' ih =>
    have hne : x' ++ y ≠ [] := by simp [hy]
    rw [List.cons_append, lastNotSpace_cons a _ hne, ih]

/-- `lastNotSpace` in terms of the last element. -/
theorem lastNotSpace_spec :
    ∀ x : List Char, lastNotSpace x = true ↔ ∀ l, x.getLast? = some l → isSpace l = false := by
  intro x
  induction x with
  | nil => simp [lastNotSpace]
  | cons a z ih =>
    cases z with
    | nil =>
      simp only [lastNotSpace, List.getLast?_singleton]
      constructor
      · intro h l hl
        cases hl
        simpa using h
      · intro h
        simpa using h a rfl
    | cons b z' =>
      rw [lastNotSpace_cons a _ (by simp), List.getLast?_cons_cons, ih]

/-- A sentence with non-whitespace ends is untouched by `strip`. -/
theorem pyStrip_good (x : List Char) (hx : goodSent x) : pyStrip x = x := by
  obtain ⟨hx0, hxh, hxl⟩ := hx
  cases x with
  | nil => exact absurd rfl hx0
  | cons c x' =>
    have hc : isSpace c = false := by simpa [headNotSpace] using hxh
    unfold pyStrip
    rw [List.dropWhile_cons, if_neg (by simp [hc])]
    cases hrev : (c :: x').reverse with
    | nil => simp at hrev
    | cons b z =>
      have hx2 : (c :: x') = z.reverse ++ [b] := by
        have := congrArg List.reverse hrev
        simpa using this
      have hb : (c :: x').getLast? = some b := by
        rw [hx2, List.getLast?_concat]
      have hbs : isSpace b = false := (lastNotSpace_spec (c :: x')).mp hxl b hb
      rw [List.dropWhile_cons, if_neg (by simp [hbs])]
      simpa using congrArg List.reverse hrev.symm

/-- Gluing two good sentences with a separating space is good. -/
theorem goodSent_glue (x s : List Char) (hx : goodSent x) (hs : goodSent s) :
    goodSent (x ++ [' '] ++ s) := by
  obtain ⟨hx0, hxh, _⟩ := hx
  obtain ⟨hs0, _, hsl⟩ := hs
  refine ⟨by simp, ?_, ?_⟩
  · rw [List.append_assoc, headNotSpace_append x _ hx0]
    exact hxh
  · rw [lastNotSpace_append _ s hs0]
    exact hsl

/-- The loop never returns an empty chunk list from a non-empty buffer. -/
theorem chunkLoop_ne_nil (cs : Int) :
    ∀ (rest : List (List Char)) (current : List Char), current ≠ [] →
      chunkLoop cs current rest ≠ [] := by
  intro rest
  induction rest with
  | nil =>
    intro current h0
    simp only [chunkLoop, if_neg h0]
    simp
  | cons s rest ih =>
    intro current h0
    simp only [chunkLoop]
    by_cases hfit : ((current.length : Int) + (s.length : Int) ≤ cs)
    · rw [if_pos hfit]
      exact ih _ (by simp)
    · rw [if_neg hfit, if_neg h0]
      simp

theorem joinSp_cons_of_ne (s : List Char) (l : List (List Char)) (hl : l ≠ []) :
    joinSp (s :: l) = s ++ ' ' :: joinSp l := by
  cases l with
  | nil => exact absurd rfl hl
  | cons t r => rfl

theorem joinSp_glue (x s : List Char) (r : List (List Char)) :
    joinSp ((x ++ [' '] ++ s) :: r) = joinSp (x :: s :: r) := by
  cases r with
  | nil => simp [joinSp]
  | cons t r' => simp [joinSp, List.append_assoc]

/-- Joining the chunks of a buffer `x ++ " "` and the remaining good sentences
reproduces the space-joined sentence sequence. -/
theorem chunkLoop_joinSp (cs : Int) :
    ∀ (rest : List (List Char)) (x : List Char),
      goodSent x → (∀ s ∈ rest, goodSent s) →
      joinSp (chunkLoop cs (x ++ [' ']) rest) = joinSp (x :: rest) := by
  intro rest
  induction rest with
  | nil =>
    intro x hx _
    have hne : x ++ [' '] ≠ [] := by simp
    simp only [chunkLoop, if_neg hne]
    rw [pyStrip_append_space, pyStrip_good x hx]
  | cons s rest ih =>
    intro x hx hall
    have hs : goodSent s := hall s (List.mem_cons_self s rest)
    have hrest : ∀ t ∈ rest, goodSent t := fun t ht => hall t (List.mem_cons_of_mem s ht)
    simp only [chunkLoop]
    by_cases hfit : (((x ++ [' ']).length : Int) + (s.length : Int) ≤ cs)
    · rw [if_pos hfit]
      have hassoc : (x ++ [' ']) ++ s ++ [' '] = (x ++ [' '] ++ s) ++ [' '] := by
        simp [List.append_assoc]
      rw [hassoc, ih (x ++ [' '] ++ s) (goodSent_glue x s hx hs) hrest]
      exact joinSp_glue x s rest
    · rw [if_neg hfit]
      have hne : x ++ [' '] ≠ [] := by simp
      rw [if_neg hne]
      rw [pyStrip_append_space, pyStrip_good x hx]
      rw [joinSp_cons_of_ne x _ (chunkLoop_ne_nil cs rest (s ++ [' ']) (by simp))]
      rw [ih s hs hrest]
      rfl

/-- Starting the loop on an empty buffer with a non-empty good sentence list
joins back to the space-joined sentences. -/
theorem chunkLoop_joinSp_start (cs : Int) (ss : List (List Char))
    (hss : ∀ s ∈ ss, goodSent s) (hne : ss ≠ []) :
    joinSp (chunkLoop cs [] ss) = joinSp ss := by
  cases ss with
  | nil => exact absurd rfl hne
  | cons s rest =>
    have hstep : chunkLoop cs [] (s :: rest) = chunkLoop cs (s ++ [' ']) rest := by
      show (if ((([] : List Char).length : Int) + (s.length : Int) ≤ cs) then
          chunkLoop cs (s ++ [' ']) rest else chunkLoop cs (s ++ [' ']) rest) = _
      exact ite_self _
    rw [hstep, chunkLoop_joinSp cs rest s (hss s (List.mem_cons_self s rest))
      (fun t ht => hss t (List.mem_cons_of_mem s ht))]

theorem noAdjSpace_tail (a : Char) (l : List Char) (h : noAdjSpace (a :: l) = true) :
    noAdjSpace l = true := by
  cases l with
  | nil => rfl
  | cons b r => exact ((Bool.and_eq_true _ _).mp h).2

theorem allBlank_tail {a : Char} {l : List Char} (h : allBlank (a :: l) = true) :
    allBlank l = true := by
  simp only [allBlank, List.all_cons, Bool.and_eq_true] at h
  exact h.2

theorem punct_not_space (c : Char) (h : isPunct c = true) : isSpace c = false := by
  have hc : (c = '.' ∨ c = '!') ∨ c = '?' := by
    simpa [isPunct, Bool.or_eq_true, beq_iff_eq] using h
  rcases hc with (rfl | rfl) | rfl <;> decide

/-- The scanner always produces at least one sentence. -/
theorem sentAux_ne_nil : ∀ (t : List Char) (mode : Bool) (acc : List Char),
    sentAux mode acc t ≠ [] := by
  intro t
  induction t with
  | nil => intro mode acc; cases mode <;> simp [sentAux]
  | cons c rest ih =>
    intro mode acc
    cases mode
    · simp only [sentAux]
      by_cases hsplit : (isPunct c && startsWithSpace rest) = true
      · rw [if_pos hsplit]; simp
      · rw [if_neg hsplit]; exact ih false (c :: acc)
    · simp only [sentAux]
      by_cases hsp : isSpace c = true
      · rw [if_pos hsp]; exact ih true acc
      · rw [if_neg hsp]
        by_cases hsplit : (isPunct c && startsWithSpace rest) = true
        · rw [if_pos hsplit]; simp
        · rw [if_neg hsplit]; exact ih false (c :: acc)

/-- In skip mode a space character is consumed. -/
theorem sentAux_skip_space (acc rest : List Char) :
    sentAux true acc (' ' :: rest) = sentAux true acc rest := by
  rw [show sentAux true acc (' ' :: rest) =
      if isSpace ' ' = true then sentAux true acc rest
      else if (isPunct ' ' && startsWithSpace rest) = true then
        (' ' :: acc).reverse :: sentAux true [] rest
      else sentAux false (' ' :: acc) rest from rfl]
  rw [if_pos (show isSpace ' ' = true from rfl)]

/-- On a non-space head the two scanner modes agree. -/
theorem sentAux_true_eq_false (acc : List Char) (c : Char) (rest : List Char)
    (hc : isSpace c = false) :
    sentAux true acc (c :: rest) = sentAux false acc (c :: rest) := by
  rw [show sentAux true acc (c :: rest) =
      if isSpace c = true then sentAux true acc rest
      else if (isPunct c && startsWithSpace rest) = true then
        (c :: acc).reverse :: sentAux true [] rest
      else sentAux false (c :: acc) rest from rfl]
  rw [if_neg (by simp [hc])]
  rfl

/-- Scanner output on exhausted input. -/
theorem sentAux_norm_nil (acc : List Char) (hne : acc.reverse ≠ [])
    (hh : headNotSpace acc.reverse = true) (hl : lastNotSpace acc.reverse = true) :
    joinSp (sentAux false acc []) = acc.reverse ∧
      ∀ s ∈ sentAux false acc [], goodSent s := by
  constructor
  · rfl
  · intro s hs
    have hs' : s = acc.reverse := by simpa [sentAux] using hs
    rw [hs']
    exact ⟨hne, hh, hl⟩

/-- Main sentence-structure lemma on normalized text: on input with no
adjacent whitespace, only plain spaces, and non-space boundary characters,
the scanner emits good sentences whose space-join is the input (prefixed
with the pending reversed accumulator). -/
theorem sentAux_norm : ∀ (n : ℕ) (t acc : List Char), t.length ≤ n →
    noAdjSpace t = true → allBlank t = true →
    acc.reverse ++ t ≠ [] →
    headNotSpace (acc.reverse ++ t) = true →
    lastNotSpace (acc.reverse ++ t) = true →
    joinSp (sentAux false acc t) = acc.reverse ++ t ∧
      ∀ s ∈ sentAux false acc t, goodSent s := by
  intro n
  induction n with
  | zero =>
    intro t acc hlen _ _ hne hh hl
    have ht : t = [] := List.length_eq_zero.mp (Nat.le_zero.mp hlen)
    subst ht
    rw [List.append_nil] at hne hh hl ⊢
    exact sentAux_norm_nil acc hne hh hl
  | succ n ih =>
    intro t acc hlen hadj hbl hne hh hl
    cases t with
    | nil =>
      rw [List.append_nil] at hne hh hl ⊢
      exact sentAux_norm_nil acc hne hh hl
    | cons c rest =>
      by_cases hsplit : (isPunct c && startsWithSpace rest) = true
      · cases rest with
        | nil => exact absurd hsplit (by simp [startsWithSpace])
        | cons d rest₂ =>
          have hpc : isPunct c = true := ((Bool.and_eq_true _ _).mp hsplit).1
          have hd : isSpace d = true := by
            simpa [startsWithSpace] using ((Bool.and_eq_true _ _).mp hsplit).2
          have hdb : d = ' ' := by
            have h1 := List.all_eq_true.mp hbl d (by simp)
            simpa [hd] using h1
          subst hdb
          have hr2ne : rest₂ ≠ [] := by
            intro h0
            subst h0
            have hlast := (lastNotSpace_spec _).mp hl ' ' (by
              rw [List.getLast?_append_of_ne_nil _ (by simp)]
              rfl)
            exact absurd hlast (by decide)
          obtain ⟨e, rest₃, rfl⟩ : ∃ e rest₃, rest₂ = e :: rest₃ := by
            cases rest₂ with
            | nil => exact absurd rfl hr2ne
            | cons e r => exact ⟨e, r, rfl⟩
          have he : isSpace e = false := by
            have h2 : noAdjSpace (' ' :: e :: rest₃) = true := noAdjSpace_tail _ _ hadj
            have h3 := ((Bool.and_eq_true _ _).mp h2).1
            rw [show isSpace ' ' = true from rfl] at h3
            cases hE : isSpace e with
            | false => rfl
            | true => rw [hE] at h3; simp at h3
          have hstep : sentAux false acc (c :: ' ' :: e :: rest₃) =
              (c :: acc).reverse :: sentAux false [] (e :: rest₃) := by
            rw [show sentAux false acc (c :: ' ' :: e :: rest₃) =
                if (isPunct c && startsWithSpace (' ' :: e :: rest₃)) = true then
                  (c :: acc).reverse :: sentAux true [] (' ' :: e :: rest₃)
                else sentAux false (c :: acc) (' ' :: e :: rest₃) from rfl]
            rw [if_pos hsplit, sentAux_skip_space, sentAux_true_eq_false [] e rest₃ he]
          rw [hstep]
          have hlen' : (e :: rest₃).length ≤ n := by
            simp only [List.length_cons] at hlen ⊢
            omega
          have hadj' : noAdjSpace (e :: rest₃) = true :=
            noAdjSpace_tail _ _ (noAdjSpace_tail _ _ hadj)
          have hbl' : allBlank (e :: rest₃) = true := allBlank_tail (allBlank_tail hbl)
          have hne' : ([] : List Char).reverse ++ (e :: rest₃) ≠ [] := by simp
          have hh' : headNotSpace (([] : List Char).reverse ++ (e :: rest₃)) = true := by
            simp [headNotSpace, he]
          have hl' : lastNotSpace (([] : List Char).reverse ++ (e :: rest₃)) = true := by
            simp only [List.reverse_nil, List.nil_append]
            have hred : lastNotSpace (acc.reverse ++ c :: ' ' :: e :: rest₃) =
                lastNotSpace (e :: rest₃) := by
              rw [lastNotSpace_append _ _ (by simp), lastNotSpace_cons _ _ (by simp),
                lastNotSpace_cons _ _ (by simp)]
            rw [← hred]
            exact hl
          obtain ⟨hj, hg⟩ := ih (e :: rest₃) [] hlen' hadj' hbl' hne' hh' hl'
          simp only [List.reverse_nil, List.nil_append] at hj
          constructor
          · rw [joinSp_cons_of_ne _ _ (sentAux_ne_nil (e :: rest₃) false []), hj]
            simp
          · intro s hs
            rcases List.mem_cons.mp hs with h1 | h2
            · rw [h1]
              refine ⟨by simp, ?_, ?_⟩
              · rw [List.reverse_cons]
                cases hacc : acc.reverse with
                | nil =>
                  simp only [List.nil_append]
                  simp [headNotSpace, punct_not_space c hpc]
                | cons a as =>
                  rw [headNotSpace_append _ _ (by simp)]
                  rw [hacc, headNotSpace_append _ _ (by simp)] at hh
                  exact hh
              · rw [List.reverse_cons, lastNotSpace_append _ _ (by simp)]
                simp [lastNotSpace, punct_not_space c hpc]
            · exact hg s h2
      · have heq : sentAux false acc (c :: rest) = sentAux false (c :: acc) rest := by
          rw [show sentAux false acc (c :: rest) =
              if (isPunct c && startsWithSpace rest) = true then
                (c :: acc).reverse :: sentAux true [] rest
              else sentAux false (c :: acc) rest from rfl]
          rw [if_neg hsplit]
        rw [heq]
        have harr : (c :: acc).reverse ++ rest = acc.reverse ++ c :: rest := by simp
        have hlen' : rest.length ≤ n := by
          simp only [List.length_cons] at hlen
          omega
        have hne' : (c :: acc).reverse ++ rest ≠ [] := by rw [harr]; exact hne
        have hh' : headNotSpace ((c :: acc).reverse ++ rest) = true := by
          rw [harr]; exact hh
        have hl' : lastNotSpace ((c :: acc).reverse ++ rest) = true := by
          rw [harr]; exact hl
        obtain ⟨hj, hg⟩ := ih rest (c :: acc) hlen' (noAdjSpace_tail _ _ hadj)
          (allBlank_tail hbl) hne' hh' hl'
        exact ⟨hj.trans harr, hg⟩

/-- A concrete populated store used by witnesses: three one-dimensional rows
with pairwise distinct scores against `encode0` queries. -/
def store3 : VectorStore :=
  ⟨[[3], [1], [2]], [⟨"x", none⟩, ⟨"y", none⟩, ⟨"z", none⟩]⟩

/-- Length bookkeeping of one `add_texts` call: the vector rows grow by
`texts.length`, the documents by `min texts.length metas.length`. -/
theorem add_texts_length_eq (encode : String → List ℤ) (vs : VectorStore)
    (texts : List String) (metadatas : Option (List Md))
    (hm : ∀ m, metadatas = some m → texts.length ≤ m.length)
    (hinv : vs.vectors.length = vs.documents.length) :
    (add_texts encode vs texts metadatas).vectors.length =
      (add_texts encode vs texts metadatas).documents.length := by
  unfold add_texts
  by_cases h : texts.isEmpty
  · simp [h, hinv]
  · simp only [h, Bool.false_eq_true, if_false, List.length_append, List.length_map,
      List.length_zip]
    cases metadatas with
    | none => simp [hinv]
    | some m =>
      have := hm m rfl
      simp only [List.length_map]
      omega

/-- The insert invariant over a whole call sequence, given well-formed
metadata lengths. -/
theorem applyCalls_length_eq (encode : String → List ℤ) :
    ∀ (calls : List InsertCall) (vs : VectorStore),
      (∀ c ∈ calls, ∀ m, c.metadatas = some m → c.texts.length ≤ m.length) →
      vs.vectors.length = vs.documents.length →
      (applyCalls encode vs calls).vectors.length =
        (applyCalls encode vs calls).documents.length := by
  intro calls
  induction calls with
  | nil => intro vs _ hinv; exact hinv
  | cons c cs ih =>
    intro vs h hinv
    have hstep := add_texts_length_eq encode vs c.texts c.metadatas
      (h c (List.mem_cons_self c cs)) hinv
    exact ih _ (fun d hd => h d (List.mem_cons_of_mem c hd)) hstep

example : splitSentences "a. b".toList = [['a', '.'], ['b']] := by decide
example : splitSentences [] = [[]] := by decide
example : splitSentences "a. ".toList = ["a.".toList, []] := by decide
example : splitSentences "a. . b".toList = ["a.".toList, ".".toList, "b".toList] := by decide
example : splitSentences " . x".toList = [" .".toList, "x".toList] := by decide
example : splitSentences "a..  b".toList = ["a..".toList, "b".toList] := by decide
example : split_into_chunks [] 500 = [[]] := by decide
example : split_into_chunks " ".toList 500 = [[]] := by decide
example : split_into_chunks "abc. ".toList 4 = [['a', 'b', 'c', '.'], []] := by decide
example : split_into_chunks "aaaa. bbbb".toList 4 = ["aaaa.".toList, "bbbb".toList] := by decide
example : split_into_chunks "hello world".toList 3 = ["hello world".toList] := by decide
example :
    (add_texts encode0 emptyStore ["a", "b"] (some [[]])).vectors.length = 2 ∧
    (add_texts encode0 emptyStore ["a", "b"] (some [[]])).documents.length = 1 := by decide
example :
    similarity_search encode0
      ⟨[[3], [1], [2]], [⟨"x", none⟩, ⟨"y", none⟩, ⟨"z", none⟩]⟩ "aa" 10 =
      [⟨"x", none⟩, ⟨"z", none⟩, ⟨"y", none⟩] := by decide
example :
    similarity_search encode0
      ⟨[[1], [1], [2]], [⟨"x", none⟩, ⟨"y", none⟩, ⟨"z", none⟩]⟩ "aa" 2 =
      [⟨"z", none⟩, ⟨"x", none⟩] := by decide

/-- C1, counterexample: a single `add_texts` call whose `metadatas` is present
but shorter than `texts` leaves the index with two embedding rows and one
document, so `len(vectors) == len(documents)` fails. -/
theorem C1_invariant_cex :
    ¬ ((applyCalls encode0 emptyStore [⟨["a", "b"], some [[]]⟩]).vectors.length =
        (applyCalls encode0 emptyStore [⟨["a", "b"], some [[]]⟩]).documents.length) := by
  decide

/-- C1 (amended): for every sequence of `add_texts` calls in which every
present `metadatas` argument is at least as long as its `texts` (in
particular, of equal length), the index state afterwards satisfies
`len(vectors) == len(documents) == ntotal`. -/
theorem C1_insert_invariant (encode : String → List ℤ) (calls : List InsertCall)
    (h : ∀ c ∈ calls, ∀ m, c.metadatas = some m → c.texts.length ≤ m.length) :
    (applyCalls encode emptyStore calls).vectors.length =
      (applyCalls encode emptyStore calls).documents.length ∧
    (applyCalls encode emptyStore calls).documents.length =
      (applyCalls encode emptyStore calls).ntotal := by
  have h1 := applyCalls_length_eq encode calls emptyStore h rfl
  exact ⟨h1, h1.symm⟩

/-- Witness for C1: two concrete calls, one with absent metadatas and one with
equal lengths, end with two vectors, two documents, `ntotal = 2`. -/
theorem C1_insert_invariant_witness :
    (applyCalls encode0 emptyStore [⟨["a"], none⟩, ⟨["b"], some [[("s", "f")]]⟩]).vectors.length =
      (applyCalls encode0 emptyStore
        [⟨["a"], none⟩, ⟨["b"], some [[("s", "f")]]⟩]).documents.length ∧
    (applyCalls encode0 emptyStore [⟨["a"], none⟩, ⟨["b"], some [[("s", "f")]]⟩]).documents.length =
      (applyCalls encode0 emptyStore
        [⟨["a"], none⟩, ⟨["b"], some [[("s", "f")]]⟩]).ntotal :=
  C1_insert_invariant encode0 [⟨["a"], none⟩, ⟨["b"], some [[("s", "f")]]⟩] (by decide)

/-- C2 (refuted, code bug): the code performs no argument validation.  At the
failing input `add_texts(texts=["a","b"], metadatas=[{}])` no error is raised
and the state IS mutated: two embedding rows but only one document are
appended, leaving the store inconsistent instead of rejected. -/
theorem C2_no_validation_eval :
    (add_texts encode0 emptyStore ["a", "b"] (some [[]])).vectors.length = 2 ∧
    (add_texts encode0 emptyStore ["a", "b"] (some [[]])).documents.length = 1 ∧
    add_texts encode0 emptyStore ["a", "b"] (some [[]]) ≠ emptyStore := by
  decide

/-- C3: on an empty index `similarity_search` returns the empty list for every
`k ≥ 0`; on a non-empty index it returns exactly `min k ntotal` documents for
every `k ≥ 1` — never an error and never padding. -/
theorem C3_search_clamp (encode : String → List ℤ) (vs : VectorStore) (q : String) (k : ℕ) :
    (vs.vectors = [] → similarity_search encode vs q k = []) ∧
    (vs.vectors ≠ [] → 1 ≤ k →
      (similarity_search encode vs q k).length = min k vs.ntotal) := by
  constructor
  · intro h
    simp [similarity_search, h]
  · intro h _
    have hlen : vs.vectors.length ≠ 0 := by
      simpa [List.length_eq_zero] using h
    simp only [similarity_search, hlen, if_false, List.length_map, searchIndices,
      List.length_take, VectorStore.ntotal]
    have hperm := (List.perm_insertionSort (rankLE vs.vectors (encode q))
      (List.range vs.vectors.length)).length_eq
    rw [hperm, List.length_range]
    omega

/-- Witness for C3: the empty store returns `[]` at `k = 7`, and a store with
`ntotal = 3` returns exactly `3 = min 10 3` documents at `k = 10`. -/
theorem C3_search_clamp_witness :
    similarity_search encode0 emptyStore "q" 7 = [] ∧
    (similarity_search encode0 store3 "aa" 10).length = min 10 store3.ntotal :=
  ⟨(C3_search_clamp encode0 emptyStore "q" 7).1 rfl,
    (C3_search_clamp encode0 store3 "aa" 10).2 (by decide) (by decide)⟩

/-- C7: loading the result of saving a store (with the same embedding model)
yields identical search results — the same documents in the same order — for
every query and every `k`. -/
theorem C7_save_load_roundtrip (encode : String → List ℤ) (vs : VectorStore)
    (q : String) (k : ℕ) :
    similarity_search encode (VectorStore.load (VectorStore.save vs)) q k =
      similarity_search encode vs q k := rfl

/-- C8: the result of `similarity_search` is the image under `documents` of a
list of row ids that is strictly ranked: descending inner-product score, and
on exact score ties the smaller id (earlier-inserted document) first. -/
theorem C8_search_ranked (encode : String → List ℤ) (vs : VectorStore) (q : String) (k : ℕ) :
    ∃ ids : List ℕ,
      similarity_search encode vs q k = ids.map (fun i => vs.documents.getD i ⟨"", none⟩) ∧
      ids.Pairwise (fun i j =>
        score (encode q) (vs.vectors.getD j []) < score (encode q) (vs.vectors.getD i []) ∨
          (score (encode q) (vs.vectors.getD i []) = score (encode q) (vs.vectors.getD j []) ∧
            i < j)) := by
  by_cases h : vs.vectors.length = 0
  · exact ⟨[], by simp [similarity_search, h], List.Pairwise.nil⟩
  · refine ⟨searchIndices vs.vectors (encode q) (min k vs.vectors.length), ?_, ?_⟩
    · simp [similarity_search, h]
    · unfold searchIndices
      have hsorted : (List.insertionSort (rankLE vs.vectors (encode q))
          (List.range vs.vectors.length)).Pairwise (rankLE vs.vectors (encode q)) :=
        List.sorted_insertionSort (rankLE vs.vectors (encode q)) (List.range vs.vectors.length)
      have hnodup : (List.insertionSort (rankLE vs.vectors (encode q))
          (List.range vs.vectors.length)).Nodup :=
        ((List.perm_insertionSort (rankLE vs.vectors (encode q))
          (List.range vs.vectors.length)).nodup_iff).mpr (List.nodup_range _)
      have hboth := hsorted.and hnodup
      have htake := List.Pairwise.sublist
        (List.take_sublist (min k vs.vectors.length) _) hboth
      refine htake.imp ?_
      intro i j hij
      rcases hij with ⟨hr | ⟨he, hle⟩, hne⟩
      · exact Or.inl hr
      · exact Or.inr ⟨he, lt_of_le_of_ne hle hne⟩

/-- Witness for C8: `C8_search_ranked` has no propositional hypotheses;
instantiating it at the concrete `store3` still exercises it. -/
theorem C8_search_ranked_witness :
    ∃ ids : List ℕ,
      similarity_search encode0 store3 "aa" 2 =
        ids.map (fun i => store3.documents.getD i ⟨"", none⟩) ∧
      ids.Pairwise (fun i j =>
        score (encode0 "aa") (store3.vectors.getD j []) <
            score (encode0 "aa") (store3.vectors.getD i []) ∨
          (score (encode0 "aa") (store3.vectors.getD i []) =
              score (encode0 "aa") (store3.vectors.getD j []) ∧ i < j)) :=
  C8_search_ranked encode0 store3 "aa" 2

/-- C9: `add_texts` with an empty `texts` list is a no-op: the store is
returned entirely unchanged, whatever the `metadatas` argument. -/
theorem C9_insert_empty_noop (encode : String → List ℤ) (vs : VectorStore)
    (metadatas : Option (List Md)) :
    add_texts encode vs [] metadatas = vs := rfl

/-- C10: a non-empty text containing no `.`, `!` or `?` directly followed by
whitespace is treated as one single sentence: `split_into_chunks` returns
exactly one chunk, the input stripped of surrounding whitespace, for every
`chunk_size` — however far the text's length exceeds it. -/
theorem C10_no_delimiter_single_chunk (text : List Char) (chunk_size : Int)
    (h1 : text ≠ []) (h2 : noDelim text = true) :
    split_into_chunks text chunk_size = [pyStrip text] := by
  unfold split_into_chunks splitSentences
  rw [sentAux_no_split text [] h2]
  simp only [List.reverse_nil, List.nil_append]
  have hstep : chunkLoop chunk_size [] [text] = chunkLoop chunk_size (text ++ [' ']) [] := by
    show (if ((([] : List Char).length : Int) + (text.length : Int) ≤ chunk_size) then
        chunkLoop chunk_size (text ++ [' ']) [] else chunkLoop chunk_size (text ++ [' ']) []) =
      chunkLoop chunk_size (text ++ [' ']) []
    apply ite_self
  rw [hstep]
  show (if (text ++ [' ']) = [] then [] else [pyStrip (text ++ [' '])]) = [pyStrip text]
  rw [if_neg (by simp), pyStrip_append_space]

/-- C4: every chunk returned by `split_into_chunks` has length at most
`chunk_size`, except a chunk that consists of one single sentence (it equals
that sentence stripped) whose own length exceeds `chunk_size`. -/
theorem C4_chunk_size_bound (text : List Char) (chunk_size : Int) :
    ∀ c ∈ split_into_chunks text chunk_size,
      (c.length : Int) ≤ chunk_size ∨
        ∃ s ∈ splitSentences text, c = pyStrip s ∧ chunk_size < (s.length : Int) := by
  intro c hc
  exact chunkLoop_bound chunk_size (splitSentences text) (splitSentences text) []
    (fun _ h => h) (Or.inl rfl) c hc

/-- Witness for C4 at `"aaaa. bbbb"` with `chunk_size = 4`: the oversized
first chunk `"aaaa."` is a single sentence longer than 4. -/
theorem C4_chunk_size_bound_witness :
    "aaaa.".toList ∈ split_into_chunks "aaaa. bbbb".toList 4 ∧
    (("aaaa.".toList.length : Int) ≤ 4 ∨
      ∃ s ∈ splitSentences "aaaa. bbbb".toList,
        "aaaa.".toList = pyStrip s ∧ 4 < (s.length : Int)) :=
  ⟨by decide, C4_chunk_size_bound "aaaa. bbbb".toList 4 "aaaa.".toList (by decide)⟩

/-- C5, counterexample: on the empty string `split_into_chunks` returns
`[""]`, not the empty sequence, and an empty chunk also appears for the
non-degenerate input `"abc. "` with `chunk_size = 4` (its trailing empty
sentence overflows the buffer and is flushed as an empty chunk). -/
theorem C5_empty_chunk_cex :
    split_into_chunks [] 500 ≠ [] ∧ [] ∈ split_into_chunks "abc. ".toList 4 := by
  decide

/-- C5 (amended): `split_into_chunks` on the empty string returns the
one-element sequence containing the empty chunk; and since every emitted
chunk is stripped, a returned chunk is never whitespace-only unless it is
empty: every non-empty chunk contains a non-whitespace character. -/
theorem C5_chunks_never_whitespace (text : List Char) (chunk_size : Int) :
    split_into_chunks [] chunk_size = [[]] ∧
    ∀ c ∈ split_into_chunks text chunk_size, c ≠ [] → ∃ ch ∈ c, isSpace ch = false := by
  refine ⟨split_into_chunks_nil chunk_size, ?_⟩
  intro c hc hne
  obtain ⟨x, rfl⟩ := chunkLoop_mem_strip chunk_size (splitSentences text) [] c hc
  exact pyStrip_mem_nonspace x hne

/-- Witness for C5 (amended), at the one-chunk input `"ab"`. -/
theorem C5_chunks_never_whitespace_witness :
    split_into_chunks [] 500 = [[]] ∧ ∃ ch ∈ "ab".toList, isSpace ch = false :=
  ⟨(C5_chunks_never_whitespace [] 500).1,
    (C5_chunks_never_whitespace "ab".toList 500).2 "ab".toList (by decide) (by decide)⟩

/-- C6: for a whitespace-normalized input (consecutive whitespace collapsed
to single spaces, ends trimmed), joining the chunks of `split_into_chunks`
with single-space separators reproduces the input exactly — all content, in
order, with no omissions. -/
theorem C6_chunk_completeness (text : List Char) (chunk_size : Int)
    (h : Normalized text) :
    joinSp (split_into_chunks text chunk_size) = text := by
  by_cases htext : text = []
  · subst htext
    rw [split_into_chunks_nil]
    rfl
  · obtain ⟨hadj, hbl, hh, hl⟩ := h
    have hne : ([] : List Char).reverse ++ text ≠ [] := by simpa using htext
    have hh' : headNotSpace (([] : List Char).reverse ++ text) = true := by simpa using hh
    have hl' : lastNotSpace (([] : List Char).reverse ++ text) = true := by simpa using hl
    obtain ⟨hj, hg⟩ := sentAux_norm text.length text [] (le_refl _) hadj hbl hne hh' hl'
    simp only [List.reverse_nil, List.nil_append] at hj
    unfold split_into_chunks
    rw [chunkLoop_joinSp_start chunk_size (splitSentences text) hg
      (sentAux_ne_nil text false [])]
    exact hj

/-- Witness for C6 at the normalized input `"ab c. de"` with a small
`chunk_size`, which forces a two-chunk split that joins back exactly. -/
theorem C6_chunk_completeness_witness :
    Normalized "ab c. de".toList ∧
    joinSp (split_into_chunks "ab c. de".toList 5) = "ab c. de".toList :=
  ⟨by decide, C6_chunk_completeness "ab c. de".toList 5 (by decide)⟩

/-- Witness for C10: `"hello world"` has no sentence delimiter; with
`chunk_size = 3` it is returned whole as a single oversized chunk. -/
theorem C10_no_delimiter_single_chunk_witness :
    "hello world".toList ≠ [] ∧
    split_into_chunks "hello world".toList 3 = [pyStrip "hello world".toList] :=
  ⟨by decide, C10_no_delimiter_single_chunk "hello world".toList 3 (by decide) (by decide)⟩

end HealthExplain
